import Mathlib

/-!
# Phone-number forwarding (`src/phone_forward.c`)

A shallow embedding of the registry of prefix redirections and of its result
lists, followed by the properties proved about them.

Conventions of the embedding

* A C string is the list of its characters (`Number`); a `char *` that may be
  `NULL` is an `Option Number` (`CStr`).
* A `PhoneNumbers *` is the list of the `number` fields of the nodes it
  reaches through `next`; the `NULL` pointer is the empty list.
* `malloc` is an oracle: the state `Heap` lists the outcomes of the allocation
  requests still to come.  Every function that allocates takes the heap and
  returns the heap it leaves.  `free` has no observable effect and is dropped.
* A function that reads through a pointer the C code has not checked returns
  `none` when that pointer is `NULL` or points outside the string (undefined
  behaviour in C).
* `phone_forward.c` calls functions of `trie.h` and
  `phone_numbers_operations.h`.  The functions embedded from `phone_forward.c`
  take them as parameters (`TrieOps`, `NumOps`).  A model of those functions
  written from the specification (`specTrie`, `specNum`) is given afterwards.
-/

namespace PhFwd

/-! ## Data model -/

/-- The characters of a C string, without the terminating NUL. -/
abbrev Number := List Char

/-- A `char *`: `none` is the `NULL` pointer. -/
abbrev CStr := Option Number

/-- A `PhoneNumbers *`: the `number` fields of the nodes along `next`;
`[]` is the `NULL` pointer. -/
abbrev PhoneNumbers := List CStr

/-- The outcomes of the allocation requests still to come (`true`: granted).
Once the list is exhausted every request is granted. -/
abbrev Heap := List Bool

/-- One allocation request: its outcome and the heap left. -/
def malloc : Heap → Bool × Heap
  | [] => (true, [])
  | granted :: rest => (granted, rest)

/-- The string read at the pointer `s + n`: `s` without its first `n`
characters, when `n` is at most the length of `s` (at `n = strlen(s)` the
pointer is on the terminator and the string is empty). The read is invalid, and
the result `none`, when `s` is `NULL` or `n` exceeds the length of `s`: the
pointer is then past the terminator. -/
def offset (s : CStr) (n : Nat) : Option Number :=
  match s with
  | none => none
  | some str => if n ≤ str.length then some (str.drop n) else none

/-- The functions of `phone_numbers_operations.h` used by `phone_forward.c`. -/
structure NumOps where
  /-- A newly allocated string, or `NULL`. -/
  combineNumbers : Heap → CStr → CStr → CStr × Heap
  compareNumbers : CStr → CStr → Bool
  areNumbersIndentical : CStr → CStr → Bool
  startsWith : CStr → CStr → Bool

/-- The two tries owned by a registry (`struct PhoneForward`). -/
structure PhoneForward (T : Type) where
  forward : Option T
  reverse : Option T

/-- Which of the two root pointers of the registry is passed to a function of
`trie.h`: `pf->forward` or `pf->reverse`. -/
inductive TrieRef where
  | forward
  | reverse
  deriving DecidableEq, Repr

/-- The functions of `trie.h` used by `phone_forward.c`, over the type `T` of
tries.  `insert` and `removeFromForward` receive root pointers and change the
nodes in place; here they receive the registry, the two roots they were passed
(as `TrieRef`) and return the registry they leave. -/
structure TrieOps (T : Type) where
  newNode : Heap → Option T × Heap
  insert : Heap → PhoneForward T → TrieRef → TrieRef → CStr → CStr → Bool →
    Bool × PhoneForward T × Heap
  removeFromForward : PhoneForward T → TrieRef → TrieRef → CStr → PhoneForward T
  /-- The list written to `*ans`, which is `NULL` before the call. -/
  getFromForward : Heap → T → CStr → PhoneNumbers × Heap
  /-- The list written to `*ans`, which is `NULL` before the call. -/
  getFromReverse : Heap → Option T → CStr → PhoneNumbers × Heap

/-! ## Result lists (`phone_forward.c`) -/

/-- The function `newPhoneNumber`: a one-element list holding `number`, or `NULL` when the
node cannot be allocated. -/
def newPhoneNumber (h : Heap) (number : CStr) : PhoneNumbers × Heap :=
  match malloc h with
  | (false, h1) => ([], h1)
  | (true, h1) => ([number], h1)

/-- The `for` loop of `phnumGet`: follows `next` at most `idx` times, stopping
at `NULL`. -/
def phnumGetLoop : PhoneNumbers → Nat → PhoneNumbers
  | pnum, 0 => pnum
  | [], _ + 1 => []
  | _ :: next, i + 1 => phnumGetLoop next i

/-- The function `phnumGet`: the number at index `idx`, or `NULL`. -/
def phnumGet (pnum : PhoneNumbers) (idx : Nat) : CStr :=
  match phnumGetLoop pnum idx with
  | [] => none
  | number :: _ => number

/-- The function `insertFirstNumber`: puts `number` combined with the string at
`num + level + 1` in front of `*result`, unless it is identical to the first
number. Returns the value returned, `*result` and the heap; `none` when
`num + level + 1` is outside `num` or `*result` is `NULL`. The first number is read before `*result` is
compared with `NULL`, so the `else` branch of that comparison is never taken. -/
def insertFirstNumber (ops : NumOps) (h : Heap) (result : PhoneNumbers)
    (number : CStr) (level : Nat) (num : CStr) : Option (Bool × PhoneNumbers × Heap) :=
  match offset num (level + 1) with
  | none => none
  | some rest =>
    match ops.combineNumbers h number (some rest) with
    | (none, h1) => some (false, result, h1)
    | (some number_to_insert, h1) =>
      match result with
      | [] => none
      | first :: _ =>
        if ops.areNumbersIndentical (some number_to_insert) first then
          some (true, result, h1)
        else
          match newPhoneNumber h1 (some number_to_insert) with
          | ([], h2) => some (false, result, h2)
          | (new :: _, h2) => some (true, new :: result, h2)

/-- The `while` loop of `insertLaterNumber` over the nodes after the first:
the list that follows the first node when the loop ends. -/
def insertLaterLoop (ops : NumOps) (number_to_insert : CStr) : PhoneNumbers → PhoneNumbers
  | [] => [number_to_insert]
  | number :: next =>
    if ops.areNumbersIndentical number number_to_insert then
      number :: next
    else if ops.compareNumbers number number_to_insert then
      number_to_insert :: number :: next
    else
      number :: insertLaterLoop ops number_to_insert next

/-- The function `insertLaterNumber`: puts `number` combined with the string at
`num + level + 1` somewhere after the first node of `result`. Returns the value
returned, the list and the heap; `none` when `num + level + 1` is outside `num`
or `result` is `NULL`. -/
def insertLaterNumber (ops : NumOps) (h : Heap) (result : PhoneNumbers)
    (number : CStr) (level : Nat) (num : CStr) : Option (Bool × PhoneNumbers × Heap) :=
  match offset num (level + 1) with
  | none => none
  | some rest =>
    match ops.combineNumbers h number (some rest) with
    | (none, h1) => some (false, result, h1)
    | (some number_to_insert, h1) =>
      match newPhoneNumber h1 (some number_to_insert) with
      | ([], h2) => some (false, result, h2)
      | (inserted :: _, h2) =>
        match result with
        | [] => none
        | first :: later => some (true, first :: insertLaterLoop ops inserted later, h2)

/-- The function `addNumbers`: merges every number of `source`, combined with
the string at `num + level + 1`, into `*target`. Returns the value returned,
`*target` and the heap; `none` when a number is combined while
`num + level + 1` is outside `num` or `*target` is `NULL`. -/
def addNumbers (ops : NumOps) : Heap → PhoneNumbers → PhoneNumbers → Nat → CStr →
    Option (Bool × PhoneNumbers × Heap)
  | h, [], target, _, _ => some (true, target, h)
  | h, number :: next, target, level, num =>
    match offset num (level + 1) with
    | none => none
    | some rest =>
      match ops.combineNumbers h number (some rest) with
      | (none, h1) => some (false, target, h1)
      | (some number_to_compare, h1) =>
        match target with
        | [] => none
        | first :: _ =>
          match (if ops.compareNumbers first (some number_to_compare) then
              insertFirstNumber ops h1 target number level num
            else
              insertLaterNumber ops h1 target number level num) with
          | none => none
          | some (false, target1, h2) => some (false, target1, h2)
          | some (true, target1, h2) => addNumbers ops h2 next target1 level num

/-- The `while` loop of `phnumDeleteLaterNumber` over the nodes after the
first: the list that follows the first node when the loop ends. -/
def deleteLaterLoop (ops : NumOps) (number : CStr) : PhoneNumbers → PhoneNumbers
  | [] => []
  | later :: next =>
    if ops.areNumbersIndentical later number then next
    else later :: deleteLaterLoop ops number next

/-- The function `phnumDeleteLaterNumber`: unlinks the first node after the
first one whose number is identical to `number`. Returns the list. -/
def phnumDeleteLaterNumber (ops : NumOps) (pnum : PhoneNumbers) (number : CStr) :
    PhoneNumbers :=
  match pnum with
  | [] => []
  | first :: later => first :: deleteLaterLoop ops number later

/-- The `while` loop of `phnumDeleteAllLaterNumbersStarting` over the nodes
after the first: the list that follows the first node when the loop ends. -/
def deleteAllLaterLoop (ops : NumOps) (prefixNumber : CStr) : PhoneNumbers → PhoneNumbers
  | [] => []
  | later :: next =>
    if ops.startsWith later prefixNumber then deleteAllLaterLoop ops prefixNumber next
    else later :: deleteAllLaterLoop ops prefixNumber next

/-- The function `phnumDeleteAllLaterNumbersStarting`: unlinks every node after
the first one whose number starts with `prefixNumber`. Returns the list. -/
def phnumDeleteAllLaterNumbersStarting (ops : NumOps) (pnum : PhoneNumbers)
    (prefixNumber : CStr) : PhoneNumbers :=
  match pnum with
  | [] => []
  | first :: later => first :: deleteAllLaterLoop ops prefixNumber later

/-! ## The registry (`phone_forward.c`) -/

/-- The function `phfwdNew`: a registry with two fresh roots, or `NULL`. -/
def phfwdNew {T : Type} (tops : TrieOps T) (h : Heap) : Option (PhoneForward T) × Heap :=
  match malloc h with
  | (false, h1) => (none, h1)
  | (true, h1) =>
    match tops.newNode h1 with
    | (none, h2) => (none, h2)
    | (some forward, h2) =>
      match tops.newNode h2 with
      | (none, h3) => (none, h3)
      | (some reverse, h3) => (some ⟨some forward, some reverse⟩, h3)

/-- The function `phfwdAdd`: the Forward insert, then (`&&`) the Reverse insert of the
swapped pair. Returns the value returned, the registry and the heap. -/
def phfwdAdd {T : Type} (tops : TrieOps T) (h : Heap) (pf : Option (PhoneForward T))
    (num1 num2 : CStr) : Bool × Option (PhoneForward T) × Heap :=
  match pf with
  | none => (false, none, h)
  | some p =>
    match tops.insert h p TrieRef.forward TrieRef.reverse num1 num2 false with
    | (false, p1, h1) => (false, some p1, h1)
    | (true, p1, h1) =>
      match tops.insert h1 p1 TrieRef.reverse TrieRef.reverse num2 num1 true with
      | (ok, p2, h2) => (ok, some p2, h2)

/-- The function `phfwdRemove`. Returns the registry. -/
def phfwdRemove {T : Type} (tops : TrieOps T) (pf : Option (PhoneForward T)) (num : CStr) :
    Option (PhoneForward T) :=
  match pf with
  | none => none
  | some p => some (tops.removeFromForward p TrieRef.forward TrieRef.reverse num)

/-- The function `phfwdGet`. -/
def phfwdGet {T : Type} (tops : TrieOps T) (h : Heap) (pf : Option (PhoneForward T))
    (num : CStr) : PhoneNumbers × Heap :=
  match pf with
  | none => ([], h)
  | some p =>
    match p.forward with
    | none => ([], h)
    | some forward => tops.getFromForward h forward num

/-- The function `phfwdReverse`. -/
def phfwdReverse {T : Type} (tops : TrieOps T) (h : Heap) (pf : Option (PhoneForward T))
    (num : CStr) : PhoneNumbers × Heap :=
  match pf with
  | none => ([], h)
  | some p => tops.getFromReverse h p.reverse num

/-- The second `while` loop of `deleteNumbersFromReversePhnum`, over `jumper`:
whether it ran to the end (`false`: a `phfwdGet` returned `NULL` and the
function returns `false`), the list that follows `before`, and the heap. -/
def deleteLoopLater {T : Type} (tops : TrieOps T) (ops : NumOps) (pf : PhoneForward T)
    (num : CStr) : Heap → PhoneNumbers → Bool × PhoneNumbers × Heap
  | h, [] => (true, [], h)
  | h, number :: next =>
    match phfwdGet tops h (some pf) number with
    | ([], h1) => (false, number :: next, h1)
    | (first :: _, h1) =>
      if ops.areNumbersIndentical num first then
        match deleteLoopLater tops ops pf num h1 next with
        | (ok, rest, h2) => (ok, number :: rest, h2)
      else
        deleteLoopLater tops ops pf num h1 next

/-- The first `while` loop of `deleteNumbersFromReversePhnum`, over `*ans`:
whether no `phfwdGet` returned `NULL`, whether `before` was set (the loop left
by `break`), `*ans`, and the heap. -/
def deleteLoopFirst {T : Type} (tops : TrieOps T) (ops : NumOps) (pf : PhoneForward T)
    (num : CStr) : Heap → PhoneNumbers → Bool × Bool × PhoneNumbers × Heap
  | h, [] => (true, false, [], h)
  | h, number :: next =>
    match phfwdGet tops h (some pf) number with
    | ([], h1) => (false, false, number :: next, h1)
    | (first :: _, h1) =>
      if ops.areNumbersIndentical num first then
        (true, true, number :: next, h1)
      else
        deleteLoopFirst tops ops pf num h1 next

/-- The function `deleteNumbersFromReversePhnum`: removes from `*ans` the numbers that
`phfwdGet` does not send to `num`. Returns the value returned, `*ans` and the
heap. -/
def deleteNumbersFromReversePhnum {T : Type} (tops : TrieOps T) (ops : NumOps) (h : Heap)
    (ans : PhoneNumbers) (pf : PhoneForward T) (num : CStr) : Bool × PhoneNumbers × Heap :=
  match ans with
  | [] => (true, [], h)
  | _ :: _ =>
    match deleteLoopFirst tops ops pf num h ans with
    | (false, _, ans1, h1) => (false, ans1, h1)
    | (true, _, [], h1) => (true, [], h1)
    | (true, false, ans1, h1) => (true, ans1, h1)
    | (true, true, before :: jumper, h1) =>
      match deleteLoopLater tops ops pf num h1 jumper with
      | (ok, rest, h2) => (ok, before :: rest, h2)

/-- The function `phfwdGetReverse`. -/
def phfwdGetReverse {T : Type} (tops : TrieOps T) (ops : NumOps) (h : Heap)
    (pf : Option (PhoneForward T)) (num : CStr) : PhoneNumbers × Heap :=
  match pf with
  | none => ([], h)
  | some p =>
    match tops.getFromReverse h p.reverse num with
    | (ans, h1) =>
      match deleteNumbersFromReversePhnum tops ops h1 ans p num with
      | (true, [], h2) => newPhoneNumber h2 none
      | (true, ans1, h2) => (ans1, h2)
      | (false, _, h2) => ([], h2)

/-! ## Vocabulary for the consistency filter -/

/-- Whether the filter of `phfwdGetReverse` keeps a candidate that `phfwdGet`
sends to the list `image`: the first number of `image` is identical to `num`.
(A `NULL` image is a failure of `phfwdGet`, not a candidate to drop.) -/
def survives (ops : NumOps) (num : CStr) (image : PhoneNumbers) : Bool :=
  match image with
  | [] => false
  | first :: _ => ops.areNumbersIndentical num first

/-- Whether every `phfwdGet` call made while filtering `candidates`, starting
on heap `h`, returns a list: the calls are made in the order of the list, each
on the heap the previous one left, until one returns `NULL`. -/
def getsSucceed {T : Type} (tops : TrieOps T) (pf : PhoneForward T) :
    Heap → PhoneNumbers → Bool
  | _, [] => true
  | h, number :: next =>
    match phfwdGet tops h (some pf) number with
    | ([], _) => false
    | (_ :: _, h1) => getsSucceed tops pf h1 next

/-- The heap left by the `phfwdGet` calls on `candidates`, made in order from
heap `h`. -/
def heapAfterGets {T : Type} (tops : TrieOps T) (pf : PhoneForward T) :
    Heap → PhoneNumbers → Heap
  | h, [] => h
  | h, number :: next => heapAfterGets tops pf (phfwdGet tops h (some pf) number).2 next

/-! ## A model of `phone_numbers_operations.h` and `trie.h`

Neither file is part of the sources at hand. The definitions of this section
are written from the specification; each says which part of it. -/

/-- Modelled from the spec: the Symbol Alphabet (§3), missing with
`phone_numbers_operations.h`. The character of an index 0–11: the digits, then
the two extra symbols, taken to be `*` (10) and `#` (11). -/
def symbolChar (i : Fin 12) : Char :=
  match i with
  | 0 => '0' | 1 => '1' | 2 => '2' | 3 => '3' | 4 => '4' | 5 => '5'
  | 6 => '6' | 7 => '7' | 8 => '8' | 9 => '9' | 10 => '*' | 11 => '#'

/-- Modelled from the spec: the Symbol Alphabet (§3, §4.1), missing with
`phone_numbers_operations.h`. The index 0–11 of a character; `none` outside
the alphabet. -/
def symbolIndex (c : Char) : Option (Fin 12) :=
  (List.finRange 12).find? (fun i => symbolChar i == c)

/-- Modelled from the spec: conversion of characters to indices (§4.1), missing
with `phone_numbers_operations.h`; `none` when a character is outside the
alphabet. -/
def symbols : Number → Option (List (Fin 12))
  | [] => some []
  | c :: cs =>
    match symbolIndex c, symbols cs with
    | some i, some is => some (i :: is)
    | _, _ => none

/-- Modelled from the spec: validation of an argument (§4.1, §7), missing with
`phone_numbers_operations.h`. The path of a number; `none` (InvalidArgument)
for `NULL`, for the empty string and for a character outside the alphabet. -/
def toPath : CStr → Option (List (Fin 12))
  | none => none
  | some [] => none
  | some (c :: cs) => symbols (c :: cs)

/-- Whether the argument is a number (§4.1). -/
def isNumber (num : CStr) : Bool :=
  (toPath num).isSome

/-- The rank of a character in the order of the symbols: its index in the
alphabet; characters outside the alphabet come after, by code. -/
def symbolRank (c : Char) : Nat :=
  match symbolIndex c with
  | some i => i.val
  | none => 12 + c.toNat

/-- Lexicographic comparison of two sequences of ranks: a sequence comes after
its proper prefixes. -/
def lexLt : List Nat → List Nat → Bool
  | [], [] => false
  | [], _ :: _ => true
  | _ :: _, [] => false
  | a :: as, b :: bs => decide (a < b) || (decide (a = b) && lexLt as bs)

/-- Modelled from the spec: the total order of result lists (§3: "shorter-is-
prefix-of-longer sorts first, then lexicographic by symbol"), missing with
`phone_numbers_operations.h`. `numberLt a b`: `a` sorts strictly before `b`. -/
def numberLt (a b : Number) : Bool :=
  lexLt (a.map symbolRank) (b.map symbolRank)

/-- Modelled from the spec: the helpers of `phone_numbers_operations.h`, which
is missing. `combineNumbers` is concatenation into a newly allocated string
(§4.3 "concatenated with"), `areNumbersIndentical` is equality of the strings,
`compareNumbers a b` holds when `a` is identical to `b` or sorts after it in
the order of §3, `startsWith a b` holds when `b` is a prefix of `a`. With a
`NULL` argument they yield `NULL`, respectively `false`. -/
def specNum : NumOps where
  combineNumbers := fun h a b =>
    match a, b with
    | some x, some y =>
      match malloc h with
      | (false, h1) => (none, h1)
      | (true, h1) => (some (x ++ y), h1)
    | _, _ => (none, h)
  compareNumbers := fun a b =>
    match a, b with
    | some x, some y => decide (x = y) || numberLt y x
    | _, _ => false
  areNumbersIndentical := fun a b =>
    match a, b with
    | some x, some y => decide (x = y)
    | _, _ => false
  startsWith := fun a b =>
    match a, b with
    | some x, some y => y.isPrefixOf x
    | _, _ => false

/-- Modelled from the spec: the helpers of `phone_numbers_operations.h`, which
is missing, as in `specNum` except for `compareNumbers`, read here as the
strict test of the order of §3: `compareNumbers a b` holds when `a` sorts
after `b`, and not when the two are identical. -/
def strictNum : NumOps where
  combineNumbers := specNum.combineNumbers
  compareNumbers := fun a b =>
    match a, b with
    | some x, some y => numberLt y x
    | _, _ => false
  areNumbersIndentical := specNum.areNumbersIndentical
  startsWith := specNum.startsWith

/-- Modelled from the spec: the TrieNode of §3, missing with `trie.h`. A node
has twelve child slots and its Redirect: no number, or the number a Forward
node redirects to, or the numbers of the rules mirrored on a Reverse node
(§3 "num2-prefix → num1-prefix candidates"). `absent` is an empty slot. The
back-reference of a Forward node is not stored: the paired node is the Reverse
node on the path spelled by its Redirect. -/
inductive Trie where
  | absent : Trie
  | node (redirect : List Number) (children : Fin 12 → Trie) : Trie

namespace Trie

/-- Modelled from the spec: a new node (§3), missing with `trie.h`: no
Redirect, no child. -/
def fresh : Trie :=
  node [] (fun _ => absent)

def isAbsent : Trie → Bool
  | absent => true
  | node _ _ => false

def redirect : Trie → List Number
  | absent => []
  | node r _ => r

def child : Trie → Fin 12 → Trie
  | absent, _ => absent
  | node _ ch, c => ch c

/-- The node reached from `t` along `path`; `absent` when a child is missing. -/
def walk : Trie → List (Fin 12) → Trie
  | t, [] => t
  | t, c :: cs => walk (t.child c) cs

/-- The Redirect stored on the node at `path`, `[]` when there is none. -/
def redirectAt (t : Trie) (path : List (Fin 12)) : List Number :=
  (t.walk path).redirect

/-- Modelled from the spec: pruning (§3 invariant, §4.2 `remove`), missing with
`trie.h`: a node with no child and no Redirect does not persist. -/
def prune : Trie → Trie
  | absent => absent
  | node r ch =>
    if r.isEmpty && (List.finRange 12).all (fun i => (ch i).isAbsent) then absent
    else node r ch

/-- The root of a trie is never pruned (§4.2 "or the root is reached"). -/
def keepRoot : Trie → Trie
  | absent => fresh
  | node r ch => node r ch

/-- Modelled from the spec: the walk of `insert` (§4.2), missing with
`trie.h`: follows `path`, creating the missing nodes, and replaces the
Redirect `r` of the terminal node by `f r`. -/
def store (f : List Number → List Number) : Trie → List (Fin 12) → Trie
  | absent, [] => node (f []) (fun _ => absent)
  | node r ch, [] => node (f r) ch
  | absent, c :: cs => node [] (Function.update (fun _ => absent) c (store f absent cs))
  | node r ch, c :: cs => node r (Function.update ch c (store f (ch c) cs))

/-- Modelled from the spec: `longestPrefixMatch` (§4.2), missing with `trie.h`:
descends along `path` from depth `depth`, remembering in `best` the deepest
node seen that carries a Redirect, with the depth consumed. -/
def longestPrefixMatch : Trie → List (Fin 12) → Nat → Option (Number × Nat) →
    Option (Number × Nat)
  | absent, _, _, best => best
  | node [] _, [], _, best => best
  | node (target :: _) _, [], depth, _ => some (target, depth)
  | node [] ch, c :: cs, depth, best => longestPrefixMatch (ch c) cs (depth + 1) best
  | node (target :: _) ch, c :: cs, depth, _ =>
    longestPrefixMatch (ch c) cs (depth + 1) (some (target, depth))

/-- Modelled from the spec: `remove` (§4.2), missing with `trie.h`: deletes the
subtree at `path` and prunes the ancestors left empty. -/
def cut : Trie → List (Fin 12) → Trie
  | _, [] => absent
  | absent, _ :: _ => absent
  | node r ch, c :: cs => prune (node r (Function.update ch c (cut (ch c) cs)))

/-- Modelled from the spec: removal of one mirrored entry (§4.2 "Cross-trie
linkage"), missing with `trie.h`: drops the number `source` from the Redirect
of the node at `path` and prunes what is left empty. -/
def erase (source : Number) : Trie → List (Fin 12) → Trie
  | absent, _ => absent
  | node r ch, [] => prune (node (r.filter (fun c => decide (c ≠ source))) ch)
  | node r ch, c :: cs => prune (node r (Function.update ch c (erase source (ch c) cs)))

/-- The rules stored in a Forward subtree whose root is reached by the
characters `pre`: the pairs of a stored prefix and its Redirect. -/
def rules : Trie → Number → List (Number × Number)
  | absent, _ => []
  | node r ch, pre =>
    r.map (fun target => (pre, target)) ++
      (List.finRange 12).flatMap (fun i => rules (ch i) (pre ++ [symbolChar i]))

/-- Modelled from the spec: the walk of `reverseLookup` (§4.4), missing with
`trie.h`: at every node along `path` that carries a Redirect, each stored
number followed by the part of `num` not consumed yet (`depth` symbols are
consumed on reaching the node). -/
def candidates : Trie → List (Fin 12) → Number → Nat → List Number
  | absent, _, _, _ => []
  | node r _, [], num, depth => r.map (fun c => c ++ num.drop depth)
  | node r ch, c :: cs, num, depth =>
    r.map (fun c => c ++ num.drop depth) ++ candidates (ch c) cs num (depth + 1)

end Trie

/-- Modelled from the spec: the ordered merge of `reverseLookup` (§4.4),
missing with `trie.h`: a candidate identical to a number already present is
dropped, otherwise it is inserted at its sorted position. -/
def mergeCandidate : List Number → Number → List Number
  | [], candidate => [candidate]
  | x :: rest, candidate =>
    if x = candidate then x :: rest
    else if numberLt candidate x then candidate :: x :: rest
    else x :: mergeCandidate rest candidate

/-- The root a `TrieRef` designates. -/
def PhoneForward.root {T : Type} (pf : PhoneForward T) : TrieRef → Option T
  | TrieRef.forward => pf.forward
  | TrieRef.reverse => pf.reverse

/-- The registry after the trie designated by a `TrieRef` has been changed in
place to `t`. -/
def PhoneForward.setRoot {T : Type} (pf : PhoneForward T) : TrieRef → T → PhoneForward T
  | TrieRef.forward, t => { pf with forward := some t }
  | TrieRef.reverse, t => { pf with reverse := some t }

/-- Modelled from the spec: `newNode` of `trie.h`, which is missing. -/
def specNewNode (h : Heap) : Option Trie × Heap :=
  match malloc h with
  | (false, h1) => (none, h1)
  | (true, h1) => (some Trie.fresh, h1)

/-- Modelled from the spec: `insert` of `trie.h`, which is missing (§4.2
`insert`, §4.3 `add`). Both numbers are validated before any change. The rule
`num → target` is stored in the trie `trie` designates: a Forward insert
overwrites the Redirect of the terminal node, a Reverse insert (`isReverse`)
adds `target` to the numbers mirrored on it. If the rule is already there the
call succeeds without a change. The memory the call needs is granted or refused
as a whole: on refusal the trie is as before the call. -/
def specInsert (h : Heap) (pf : PhoneForward Trie) (trie _paired : TrieRef)
    (num target : CStr) (isReverse : Bool) : Bool × PhoneForward Trie × Heap :=
  match toPath num, toPath target, target, pf.root trie with
  | some path, some _, some number, some root =>
    if (if isReverse then decide (number ∈ root.redirectAt path)
        else decide (root.redirectAt path = [number])) then
      (true, pf, h)
    else
      match malloc h with
      | (false, h1) => (false, pf, h1)
      | (true, h1) =>
        (true, pf.setRoot trie
          (root.store (fun r => if isReverse then r ++ [number] else [number]) path), h1)
  | _, _, _, _ => (false, pf, h)

/-- Modelled from the spec: the removal of the Reverse entry linked to the
Forward rule `source → target` (§4.2 "Cross-trie linkage"), missing with
`trie.h`. -/
def eraseMirror (reverse : Trie) (rule : Number × Number) : Trie :=
  match symbols rule.2 with
  | some path => (reverse.erase rule.1 path).keepRoot
  | none => reverse

/-- Modelled from the spec: `removeFromForward` of `trie.h`, which is missing
(§4.2 `remove`, §4.3 `remove`). Validates `num`; does nothing when no node
matches it; otherwise removes the Forward subtree at `num` and, from the Reverse
trie, the entry linked to each rule of that subtree. -/
def specRemoveFromForward (pf : PhoneForward Trie) (fwdRef revRef : TrieRef)
    (num : CStr) : PhoneForward Trie :=
  match num, toPath num, pf.root fwdRef, pf.root revRef with
  | some prefixNumber, some path, some fwd, some rev =>
    if (fwd.walk path).isAbsent then pf
    else
      (pf.setRoot revRef (((fwd.walk path).rules prefixNumber).foldl eraseMirror rev)).setRoot
        fwdRef (fwd.cut path).keepRoot
  | _, _, _, _ => pf

/-- Modelled from the spec: `getFromForward` of `trie.h`, which is missing
(§4.3 `get`). Validates `num`; the result is one number: the Redirect of the
longest matching prefix followed by the unmatched suffix, or `num` itself. The
result stays `NULL` on an invalid argument or when memory is refused. -/
def specGetFromForward (h : Heap) (root : Trie) (num : CStr) : PhoneNumbers × Heap :=
  match num, toPath num with
  | some number, some path =>
    match malloc h with
    | (false, h1) => ([], h1)
    | (true, h1) =>
      match root.longestPrefixMatch path 0 none with
      | none => ([some number], h1)
      | some (target, depth) => ([some (target ++ number.drop depth)], h1)
  | _, _ => ([], h)

/-- Modelled from the spec: `getFromReverse` of `trie.h`, which is missing
(§4.4 `reverseLookup`). Validates `num`; merges the candidates found along the
path into a sorted list without duplicates. The result stays `NULL` on an
invalid argument, when there is no candidate, or when memory is refused. -/
def specGetFromReverse (h : Heap) (root : Option Trie) (num : CStr) : PhoneNumbers × Heap :=
  match root, num, toPath num with
  | some reverse, some number, some path =>
    match reverse.candidates path number 0 with
    | [] => ([], h)
    | c :: cs =>
      match malloc h with
      | (false, h1) => ([], h1)
      | (true, h1) => (((c :: cs).foldl mergeCandidate []).map some, h1)
  | _, _, _ => ([], h)

/-- Modelled from the spec: the Trie Engine (§4.2–§4.4), standing for the
functions of `trie.h`, which is missing. -/
def specTrie : TrieOps Trie where
  newNode := specNewNode
  insert := specInsert
  removeFromForward := specRemoveFromForward
  getFromForward := specGetFromForward
  getFromReverse := specGetFromReverse

/-- The registries reached from a new registry by calls of `phfwdAdd` that
return `true` and calls of `phfwdRemove`, over the model of the Trie Engine. -/
inductive Reachable : PhoneForward Trie → Prop
  | new (h : Heap) (pf : PhoneForward Trie) :
      (phfwdNew specTrie h).1 = some pf → Reachable pf
  | add (h : Heap) (pf : PhoneForward Trie) (num1 num2 : CStr) (pf1 : PhoneForward Trie) :
      Reachable pf → (phfwdAdd specTrie h (some pf) num1 num2).1 = true →
      (phfwdAdd specTrie h (some pf) num1 num2).2.1 = some pf1 → Reachable pf1
  | remove (pf : PhoneForward Trie) (num : CStr) (pf1 : PhoneForward Trie) :
      Reachable pf → phfwdRemove specTrie (some pf) num = some pf1 → Reachable pf1

/-- The Redirect stored in the Forward trie of `pf` for the prefix `p`. -/
def storedRedirect (pf : PhoneForward Trie) (p : Number) : Option Number :=
  match pf.forward, toPath (some p) with
  | some root, some path => (root.redirectAt path).head?
  | _, _ => none

/-! ## Registries and lists used as concrete instances -/

/-- A new registry: two fresh roots. -/
def emptyRegistry : PhoneForward Trie :=
  ⟨some Trie.fresh, some Trie.fresh⟩

/-- The registry `phfwdAdd pf a b` leaves when memory is granted. -/
def registryAdd (pf : PhoneForward Trie) (a b : String) : PhoneForward Trie :=
  ((phfwdAdd specTrie [] (some pf) (some a.toList) (some b.toList)).2.1).getD pf

/-- The registry after `add("22", "44")`, `add("22123", "55")` (§8). -/
def registrySpecific : PhoneForward Trie :=
  registryAdd (registryAdd emptyRegistry "22" "44") "22123" "55"

/-- The registry after `add("1", "2")`. -/
def registryOneTwo : PhoneForward Trie :=
  registryAdd emptyRegistry "1" "2"

/-- The registry after `add("3", "2")`, `add("35", "4")`: the reverse lookup of
`25` finds `35`, which is forwarded to `4`. -/
def registryShadowed : PhoneForward Trie :=
  registryAdd (registryAdd emptyRegistry "3" "2") "35" "4"

/-- The list `phfwdGet` returns on `pf` for `c` when memory is granted. -/
def forwardImage (pf : PhoneForward Trie) (c : CStr) : PhoneNumbers :=
  (phfwdGet specTrie [] (some pf) c).1

/-- The registry after `add("1", "2")`, `add("3", "2")`, `add("35", "4")`:
the reverse lookup of `25` finds `15` and `35`, and `35` is forwarded to `4`. -/
def registryOverlap : PhoneForward Trie :=
  registryAdd (registryAdd (registryAdd emptyRegistry "1" "2") "3" "2") "35" "4"

/-! ## Result-list access -/

theorem phnumGetLoop_eq_drop (pnum : PhoneNumbers) (idx : Nat) :
    phnumGetLoop pnum idx = pnum.drop idx := by
  induction idx generalizing pnum with
  | zero => cases pnum <;> rfl
  | succ i ih =>
    cases pnum with
    | nil => rfl
    | cons number next => simpa [phnumGetLoop] using ih next

/-- C7: `phnumGet pnum idx` is the number stored in the element of index `idx`
(counting from 0) when `idx` is smaller than the length of the list, and `NULL`
when `idx` is at least the length, in particular for the `NULL` list. The
function reads the list only: the embedding returns nothing but the string. -/
theorem phnumGet_index (pnum : PhoneNumbers) (idx : Nat) :
    (∀ hlt : idx < pnum.length, phnumGet pnum idx = pnum.get ⟨idx, hlt⟩) ∧
    (pnum.length ≤ idx → phnumGet pnum idx = none) ∧
    phnumGet [] idx = none := by
  refine ⟨?_, ?_, ?_⟩
  · intro hlt
    unfold phnumGet
    rw [phnumGetLoop_eq_drop]
    rw [List.drop_eq_getElem_cons hlt]
    rfl
  · intro hle
    unfold phnumGet
    rw [phnumGetLoop_eq_drop, List.drop_eq_nil_of_le hle]
  · unfold phnumGet
    rw [phnumGetLoop_eq_drop, List.drop_nil]

/-! ## `phfwdAdd` -/

/-- C10: on a non-null registry `phfwdAdd` returns `true` exactly when the
Forward insert of `num1 → num2` and the Reverse insert of `num2 → num1` both
return `true`. The Reverse insert is made on the registry and heap the Forward
insert left, with the two numbers swapped, and only when the Forward insert
returned `true`: otherwise `phfwdAdd` returns `false` with the registry and heap
exactly as the Forward insert left them. -/
theorem phfwdAdd_true_iff {T : Type} (tops : TrieOps T) (h : Heap) (pf : PhoneForward T)
    (num1 num2 : CStr) :
    let fwd := tops.insert h pf TrieRef.forward TrieRef.reverse num1 num2 false
    let rev := tops.insert fwd.2.2 fwd.2.1 TrieRef.reverse TrieRef.reverse num2 num1 true
    ((phfwdAdd tops h (some pf) num1 num2).1 = true ↔ fwd.1 = true ∧ rev.1 = true) ∧
    phfwdAdd tops h (some pf) num1 num2 =
      if fwd.1 then (rev.1, some rev.2.1, rev.2.2) else (false, some fwd.2.1, fwd.2.2) := by
  intro fwd rev
  have hfwd : tops.insert h pf TrieRef.forward TrieRef.reverse num1 num2 false = fwd := rfl
  have hrev : tops.insert fwd.2.2 fwd.2.1 TrieRef.reverse TrieRef.reverse num2 num1 true = rev :=
    rfl
  obtain ⟨ok1, p1, h1⟩ := fwd
  obtain ⟨ok2, p2, h2⟩ := rev
  simp only at hrev
  cases ok1 with
  | false => simp [phfwdAdd, hfwd]
  | true => simp [phfwdAdd, hfwd, hrev]

/-! ## The consistency filter of `phfwdGetReverse` -/

section Filter

variable {T : Type} (tops : TrieOps T) (ops : NumOps) (pf : PhoneForward T) (num : CStr)

/-- The two loops of `deleteNumbersFromReversePhnum` together are one pass of
the second loop over the whole list. -/
theorem deleteLoopFirst_then_later (h : Heap) (ans : PhoneNumbers) :
    deleteLoopLater tops ops pf num h ans =
      (match deleteLoopFirst tops ops pf num h ans with
      | (false, _, ans1, h1) => (false, ans1, h1)
      | (true, _, [], h1) => (true, [], h1)
      | (true, false, ans1, h1) => (true, ans1, h1)
      | (true, true, before :: jumper, h1) =>
        match deleteLoopLater tops ops pf num h1 jumper with
        | (ok, rest, h2) => (ok, before :: rest, h2)) := by
  induction ans generalizing h with
  | nil => simp [deleteLoopLater, deleteLoopFirst]
  | cons number next ih =>
    rw [deleteLoopLater, deleteLoopFirst]
    rcases hget : phfwdGet tops h (some pf) number with ⟨image, h1⟩
    cases image with
    | nil => simp
    | cons first rest =>
      by_cases hid : ops.areNumbersIndentical num first = true
      · simp [hid]
      · simp only [hid]
        exact ih h1

theorem deleteNumbers_eq_later (h : Heap) (ans : PhoneNumbers) :
    deleteNumbersFromReversePhnum tops ops h ans pf num =
      deleteLoopLater tops ops pf num h ans := by
  cases ans with
  | nil => simp [deleteNumbersFromReversePhnum, deleteLoopLater]
  | cons number next =>
    rw [deleteLoopFirst_then_later]
    simp only [deleteNumbersFromReversePhnum]

theorem deleteLoopLater_ok (h : Heap) (ans : PhoneNumbers) :
    (deleteLoopLater tops ops pf num h ans).1 = getsSucceed tops pf h ans := by
  induction ans generalizing h with
  | nil => simp [deleteLoopLater, getsSucceed]
  | cons number next ih =>
    rw [deleteLoopLater, getsSucceed]
    rcases hget : phfwdGet tops h (some pf) number with ⟨image, h1⟩
    cases image with
    | nil => simp
    | cons first rest =>
      by_cases hid : ops.areNumbersIndentical num first = true
      · simp only [hid, if_true]
        exact ih h1
      · simp only [hid]
        exact ih h1

theorem deleteLoopLater_heap (h : Heap) (ans : PhoneNumbers)
    (hok : getsSucceed tops pf h ans = true) :
    (deleteLoopLater tops ops pf num h ans).2.2 = heapAfterGets tops pf h ans := by
  induction ans generalizing h with
  | nil => simp [deleteLoopLater, heapAfterGets]
  | cons number next ih =>
    rw [getsSucceed] at hok
    rw [deleteLoopLater, heapAfterGets]
    rcases hget : phfwdGet tops h (some pf) number with ⟨image, h1⟩
    rw [hget] at hok
    cases image with
    | nil => simp at hok
    | cons first rest =>
      simp only at hok
      by_cases hid : ops.areNumbersIndentical num first = true
      · simp only [hid, if_true]
        exact ih h1 hok
      · simp only [hid]
        exact ih h1 hok

theorem deleteLoopLater_filter (G : CStr → PhoneNumbers)
    (hdet : ∀ h c, (phfwdGet tops h (some pf) c).1 = [] ∨ (phfwdGet tops h (some pf) c).1 = G c)
    (h : Heap) (ans : PhoneNumbers) (hok : getsSucceed tops pf h ans = true) :
    (deleteLoopLater tops ops pf num h ans).2.1 =
      ans.filter (fun c => survives ops num (G c)) := by
  induction ans generalizing h with
  | nil => simp [deleteLoopLater]
  | cons number next ih =>
    rw [getsSucceed] at hok
    rw [deleteLoopLater]
    have hG := hdet h number
    rcases hget : phfwdGet tops h (some pf) number with ⟨image, h1⟩
    rw [hget] at hok hG
    cases image with
    | nil => simp at hok
    | cons first rest =>
      simp only at hok
      have hG2 : G number = first :: rest := by
        rcases hG with hG | hG
        · simp at hG
        · exact hG.symm
      have hs : survives ops num (G number) = ops.areNumbersIndentical num first := by
        rw [hG2]
        rfl
      by_cases hid : ops.areNumbersIndentical num first = true
      · simp only [hid, if_true]
        rw [List.filter_cons, hs, hid, if_pos rfl, ih h1 hok]
      · simp only [hid]
        rw [List.filter_cons, hs, if_neg hid]
        exact ih h1 hok

end Filter

/-! ## The model of the Trie Engine: Redirects after an operation -/

namespace Trie

theorem walk_absent (q : List (Fin 12)) : absent.walk q = absent := by
  induction q with
  | nil => rfl
  | cons c cs ih => simpa [walk, child] using ih

theorem redirectAt_absent (q : List (Fin 12)) : absent.redirectAt q = [] := by
  simp [redirectAt, walk_absent, redirect]

theorem redirectAt_nil (t : Trie) : t.redirectAt [] = t.redirect := rfl

theorem redirectAt_node_cons (r : List Number) (ch : Fin 12 → Trie) (c : Fin 12)
    (cs : List (Fin 12)) : (node r ch).redirectAt (c :: cs) = (ch c).redirectAt cs := rfl

theorem redirectAt_prune (t : Trie) (q : List (Fin 12)) :
    t.prune.redirectAt q = t.redirectAt q := by
  cases t with
  | absent => rfl
  | node r ch =>
    simp only [prune]
    split
    · rename_i hempty
      simp only [Bool.and_eq_true, List.isEmpty_iff, List.all_eq_true] at hempty
      obtain ⟨hr, hch⟩ := hempty
      cases q with
      | nil => simp [redirectAt_absent, redirectAt_nil, redirect, hr]
      | cons c cs =>
        have hc : ch c = absent := by
          have := hch c (List.mem_finRange c)
          cases hcc : ch c with
          | absent => rfl
          | node r2 ch2 => simp [hcc, isAbsent] at this
        rw [redirectAt_node_cons, hc, redirectAt_absent, redirectAt_absent]
    · rfl

theorem redirectAt_keepRoot (t : Trie) (q : List (Fin 12)) :
    t.keepRoot.redirectAt q = t.redirectAt q := by
  cases t with
  | absent =>
    cases q with
    | nil => rfl
    | cons c cs => simp [keepRoot, fresh, redirectAt_node_cons, redirectAt_absent]
  | node r ch => rfl

theorem redirectAt_store (f : List Number → List Number) (t : Trie) (p q : List (Fin 12)) :
    (t.store f p).redirectAt q = if q = p then f (t.redirectAt p) else t.redirectAt q := by
  induction p generalizing t q with
  | nil =>
    cases t with
    | absent =>
      cases q with
      | nil => simp [store, redirectAt_nil, redirect]
      | cons c cs => simp [store, redirectAt_node_cons, redirectAt_absent]
    | node r ch =>
      cases q with
      | nil => simp [store, redirectAt_nil, redirect]
      | cons c cs => simp [store, redirectAt_node_cons]
  | cons c cs ih =>
    cases t with
    | absent =>
      cases q with
      | nil => simp [store, redirectAt_nil, redirect]
      | cons d ds =>
        simp only [store, redirectAt_node_cons, redirectAt_absent]
        by_cases hdc : d = c
        · subst hdc
          simp [ih, redirectAt_absent]
        · simp [Function.update_noteq hdc, redirectAt_absent, hdc]
    | node r ch =>
      cases q with
      | nil => simp [store, redirectAt_nil, redirect]
      | cons d ds =>
        simp only [store, redirectAt_node_cons]
        by_cases hdc : d = c
        · subst hdc
          simp [ih]
        · simp [Function.update_noteq hdc, hdc]

theorem redirectAt_cut (t : Trie) (p q : List (Fin 12)) :
    (t.cut p).redirectAt q = if p <+: q then [] else t.redirectAt q := by
  induction p generalizing t q with
  | nil => simp [cut, redirectAt_absent]
  | cons c cs ih =>
    cases t with
    | absent => simp [cut, redirectAt_absent]
    | node r ch =>
      simp only [cut, redirectAt_prune]
      cases q with
      | nil => simp [redirectAt_nil, redirect]
      | cons d ds =>
        simp only [redirectAt_node_cons]
        by_cases hdc : d = c
        · subst hdc
          simp [ih, List.cons_prefix_cons]
        · have hdc2 : ¬ c = d := fun e => hdc e.symm
          simp [Function.update_noteq hdc, List.cons_prefix_cons, hdc2]

end Trie

/-! ## Numbers and their paths -/

theorem symbols_length {n : Number} {p : List (Fin 12)} (hs : symbols n = some p) :
    p.length = n.length := by
  induction n generalizing p with
  | nil =>
    simp only [symbols, Option.some.injEq] at hs
    subst hs
    rfl
  | cons c cs ih =>
    unfold symbols at hs
    split at hs
    · rename_i i is hi his
      simp only [Option.some.injEq] at hs
      subst hs
      simp [ih his]
    · simp at hs

theorem symbols_take {n : Number} {p : List (Fin 12)} (hs : symbols n = some p) (k : Nat) :
    symbols (n.take k) = some (p.take k) := by
  induction n generalizing p k with
  | nil =>
    simp only [symbols, Option.some.injEq] at hs
    subst hs
    simp [symbols]
  | cons c cs ih =>
    unfold symbols at hs
    split at hs
    · rename_i i is hi his
      simp only [Option.some.injEq] at hs
      subst hs
      cases k with
      | zero => simp [symbols]
      | succ k =>
        simp only [List.take_succ_cons]
        unfold symbols
        rw [hi, ih his k]
    · simp at hs

theorem toPath_some {n : Number} {p : List (Fin 12)} (hp : toPath (some n) = some p) :
    symbols n = some p ∧ n ≠ [] ∧ p ≠ [] := by
  cases n with
  | nil => simp [toPath] at hp
  | cons c cs =>
    simp only [toPath] at hp
    refine ⟨hp, by simp, ?_⟩
    intro hnil
    have := symbols_length hp
    simp [hnil] at this

theorem toPath_ne_nil {num : CStr} {p : List (Fin 12)} (hp : toPath num = some p) : p ≠ [] := by
  cases num with
  | none => simp [toPath] at hp
  | some n => exact (toPath_some hp).2.2

theorem toPath_take {n : Number} {p : List (Fin 12)} (hp : toPath (some n) = some p) (k : Nat)
    (hk : 0 < k) : toPath (some (n.take k)) = some (p.take k) := by
  obtain ⟨hs, hn, _⟩ := toPath_some hp
  have ht := symbols_take hs k
  cases htk : n.take k with
  | nil =>
    cases n with
    | nil => exact absurd rfl hn
    | cons c cs =>
      cases k with
      | zero => omega
      | succ k => simp at htk
  | cons c cs =>
    rw [htk] at ht
    simpa [toPath] using ht

/-! ## The model of the Trie Engine: longest prefix match -/

theorem Trie.longestPrefixMatch_spec (t : Trie) (path : List (Fin 12)) (depth : Nat)
    (best : Option (Number × Nat)) :
    (t.longestPrefixMatch path depth best = best ∧
        ∀ k, k ≤ path.length → t.redirectAt (path.take k) = []) ∨
      (∃ k target, k ≤ path.length ∧ (t.redirectAt (path.take k)).head? = some target ∧
        (∀ j, k < j → j ≤ path.length → t.redirectAt (path.take j) = []) ∧
        t.longestPrefixMatch path depth best = some (target, depth + k)) := by
  induction path generalizing t depth best with
  | nil =>
    cases t with
    | absent =>
      left
      exact ⟨rfl, fun k _ => Trie.redirectAt_absent _⟩
    | node r ch =>
      cases r with
      | nil =>
        left
        refine ⟨rfl, fun k _ => ?_⟩
        simp [Trie.redirectAt_nil, Trie.redirect]
      | cons target rest =>
        right
        refine ⟨0, target, le_refl _, ?_, ?_, ?_⟩
        · simp [Trie.redirectAt_nil, Trie.redirect]
        · intro j hj hle
          simp at hle
          omega
        · simp [Trie.longestPrefixMatch]
  | cons c cs ih =>
    cases t with
    | absent =>
      left
      exact ⟨rfl, fun k _ => Trie.redirectAt_absent _⟩
    | node r ch =>
      have hdeep : ∀ j, (Trie.node r ch).redirectAt ((c :: cs).take (j + 1)) =
          (ch c).redirectAt (cs.take j) := by
        intro j
        simp [Trie.redirectAt_node_cons]
      cases r with
      | nil =>
        rcases ih (ch c) (depth + 1) best with ⟨heq, hnone⟩ | ⟨k, target, hk, hhead, hmax, heq⟩
        · left
          refine ⟨by simpa [Trie.longestPrefixMatch] using heq, ?_⟩
          intro k hk
          cases k with
          | zero => simp [Trie.redirectAt_nil, Trie.redirect]
          | succ k =>
            rw [hdeep]
            exact hnone k (by simpa using hk)
        · right
          refine ⟨k + 1, target, by simpa using hk, ?_, ?_, ?_⟩
          · rw [hdeep]
            exact hhead
          · intro j hj hle
            cases j with
            | zero => omega
            | succ j =>
              rw [hdeep]
              exact hmax j (by omega) (by simpa using hle)
          · simp only [Trie.longestPrefixMatch]
            rw [heq]
            congr 2
            omega
      | cons target0 rest =>
        rcases ih (ch c) (depth + 1) (some (target0, depth)) with
          ⟨heq, hnone⟩ | ⟨k, target, hk, hhead, hmax, heq⟩
        · right
          refine ⟨0, target0, by simp, ?_, ?_, ?_⟩
          · simp [Trie.redirectAt_nil, Trie.redirect]
          · intro j hj hle
            cases j with
            | zero => omega
            | succ j =>
              rw [hdeep]
              exact hnone j (by simpa using hle)
          · simpa [Trie.longestPrefixMatch] using heq
        · right
          refine ⟨k + 1, target, by simpa using hk, ?_, ?_, ?_⟩
          · rw [hdeep]
            exact hhead
          · intro j hj hle
            cases j with
            | zero => omega
            | succ j =>
              rw [hdeep]
              exact hmax j (by omega) (by simpa using hle)
          · simp only [Trie.longestPrefixMatch]
            rw [heq]
            congr 2
            omega

/-! ## The model of the Trie Engine: `insert` and `removeFromForward` -/

theorem specInsert_forward {h h1 : Heap} {pf pf1 : PhoneForward Trie} {paired : TrieRef}
    {num target : CStr}
    (hok : specInsert h pf TrieRef.forward paired num target false = (true, pf1, h1)) :
    ∃ path number root root1, toPath num = some path ∧ target = some number ∧
      isNumber target = true ∧ pf.forward = some root ∧ pf1.forward = some root1 ∧
      pf1.reverse = pf.reverse ∧
      ∀ q, root1.redirectAt q = if q = path then [number] else root.redirectAt q := by
  unfold specInsert at hok
  split at hok
  · rename_i path tpath number root hpath hroot htarget
    simp only [PhoneForward.root] at hroot
    have hnumber : some number = some number := rfl
    have hvalid : isNumber (some number) = true := by simp [isNumber, htarget]
    simp only [Bool.false_eq_true, if_false] at hok
    split at hok
    · rename_i hsame
      simp only [Prod.mk.injEq, true_and] at hok
      obtain ⟨hpf, _⟩ := hok
      subst hpf
      refine ⟨path, number, root, root, hpath, hnumber, hvalid, hroot, hroot, rfl, ?_⟩
      intro q
      by_cases hq : q = path
      · subst hq
        simpa using hsame
      · simp [hq]
    · split at hok
      · simp at hok
      · simp only [Prod.mk.injEq, true_and] at hok
        obtain ⟨hpf, _⟩ := hok
        subst hpf
        refine ⟨path, number, root, _, hpath, hnumber, hvalid, hroot, rfl, rfl, ?_⟩
        intro q
        rw [Trie.redirectAt_store]
  · simp at hok

theorem specInsert_reverse {h h1 : Heap} {pf pf1 : PhoneForward Trie} {paired : TrieRef}
    {num target : CStr}
    (hok : specInsert h pf TrieRef.reverse paired num target true = (true, pf1, h1)) :
    ∃ path number root root1, toPath num = some path ∧ target = some number ∧
      pf.reverse = some root ∧ pf1.reverse = some root1 ∧ pf1.forward = pf.forward ∧
      ∀ q c, c ∈ root1.redirectAt q ↔ c ∈ root.redirectAt q ∨ (q = path ∧ c = number) := by
  unfold specInsert at hok
  split at hok
  · rename_i path tpath number root hpath hroot htarget
    simp only [PhoneForward.root] at hroot
    have hnumber : some number = some number := rfl
    simp only [if_true] at hok
    split at hok
    · rename_i hsame
      simp only [Prod.mk.injEq, true_and] at hok
      obtain ⟨hpf, _⟩ := hok
      subst hpf
      refine ⟨path, number, root, root, hpath, hnumber, hroot, hroot, rfl, ?_⟩
      intro q c
      constructor
      · intro hc
        exact Or.inl hc
      · rintro (hc | ⟨hq, hc⟩)
        · exact hc
        · subst hq hc
          simpa using hsame
    · split at hok
      · simp at hok
      · simp only [Prod.mk.injEq, true_and] at hok
        obtain ⟨hpf, _⟩ := hok
        subst hpf
        refine ⟨path, number, root, _, hpath, hnumber, hroot, rfl, rfl, ?_⟩
        intro q c
        rw [Trie.redirectAt_store]
        by_cases hq : q = path
        · subst hq
          simp
        · simp [hq]
  · simp at hok

/-- What a `phfwdAdd` that returns `true` leaves, over the model of the Trie
Engine: the Forward trie holds `num1 → num2` and is otherwise as before; the
Reverse trie holds `num1` on the node of `num2` and is otherwise as before. -/
theorem phfwdAdd_spec_ok {h : Heap} {pf pf1 : PhoneForward Trie} {num1 num2 : CStr}
    (hok : (phfwdAdd specTrie h (some pf) num1 num2).1 = true)
    (hpf : (phfwdAdd specTrie h (some pf) num1 num2).2.1 = some pf1) :
    ∃ path1 path2 n1 n2 fwd fwd1 rev rev1,
      num1 = some n1 ∧ num2 = some n2 ∧ toPath num1 = some path1 ∧ toPath num2 = some path2 ∧
      pf.forward = some fwd ∧ pf1.forward = some fwd1 ∧
      pf.reverse = some rev ∧ pf1.reverse = some rev1 ∧
      (∀ q, fwd1.redirectAt q = if q = path1 then [n2] else fwd.redirectAt q) ∧
      (∀ q c, c ∈ rev1.redirectAt q ↔ c ∈ rev.redirectAt q ∨ (q = path2 ∧ c = n1)) := by
  unfold phfwdAdd at hok hpf
  simp only [specTrie] at hok hpf
  rcases hfwd : specInsert h pf TrieRef.forward TrieRef.reverse num1 num2 false with ⟨ok1, p1, h1⟩
  rw [hfwd] at hok hpf
  cases ok1 with
  | false => simp at hok
  | true =>
    simp only at hok hpf
    rcases hrev : specInsert h1 p1 TrieRef.reverse TrieRef.reverse num2 num1 true with
      ⟨ok2, p2, h2⟩
    rw [hrev] at hok hpf
    simp only at hok hpf
    subst hok
    simp only [Option.some.injEq] at hpf
    subst hpf
    obtain ⟨path1, n2, fwd, fwd1, hp1, hn2, _, hf, hf1, hr1, hfq⟩ := specInsert_forward hfwd
    obtain ⟨path2, n1, rev, rev1, hp2, hn1, hr, hr2, hf2, hrq⟩ := specInsert_reverse hrev
    refine ⟨path1, path2, n1, n2, fwd, fwd1, rev, rev1, hn1, hn2, hp1, hp2, hf, ?_, ?_, hr2,
      hfq, hrq⟩
    · rw [hf2, hf1]
    · rw [← hr1, hr]

/-- What `phfwdRemove` leaves, over the model of the Trie Engine: either the
registry as it was, or the Forward trie without the subtree at `num` and the
Reverse trie without the entries linked to the rules of that subtree. -/
theorem phfwdRemove_spec {pf pf1 : PhoneForward Trie} {num : CStr}
    (hrem : phfwdRemove specTrie (some pf) num = some pf1) :
    pf1 = pf ∨
      ∃ number path fwd rev, num = some number ∧ toPath num = some path ∧
        pf.forward = some fwd ∧ pf.reverse = some rev ∧ (fwd.walk path).isAbsent = false ∧
        pf1.forward = some (fwd.cut path).keepRoot ∧
        pf1.reverse = some (((fwd.walk path).rules number).foldl eraseMirror rev) := by
  simp only [phfwdRemove, specTrie, Option.some.injEq] at hrem
  unfold specRemoveFromForward at hrem
  split at hrem
  · rename_i number path fwd rev hfwd hrev hpath
    simp only [PhoneForward.root] at hfwd hrev
    split at hrem
    · exact Or.inl hrem.symm
    · rename_i habsent
      right
      subst hrem
      exact ⟨number, path, fwd, rev, rfl, hpath, hfwd, hrev, by simpa using habsent, rfl, rfl⟩
  · exact Or.inl hrem.symm

/-- Every reachable registry has both roots, and its Forward root carries no
Redirect. -/
theorem reachable_roots {pf : PhoneForward Trie} (hreach : Reachable pf) :
    ∃ fwd rev, pf.forward = some fwd ∧ pf.reverse = some rev ∧ fwd.redirectAt [] = [] := by
  induction hreach with
  | new h pf hnew =>
    unfold phfwdNew at hnew
    simp only [specTrie, specNewNode] at hnew
    split at hnew
    · simp at hnew
    · split at hnew
      · simp at hnew
      · rename_i forward h2 hf
        split at hnew
        · simp at hnew
        · rename_i reverse h3 hr
          simp only [Option.some.injEq] at hnew
          subst hnew
          refine ⟨forward, reverse, rfl, rfl, ?_⟩
          split at hf
          · simp at hf
          · simp only [Prod.mk.injEq, Option.some.injEq] at hf
            rw [← hf.1]
            rfl
  | add h pf num1 num2 pf1 _ hok hpf ih =>
    obtain ⟨fwd0, rev0, hf0, hr0, hroot⟩ := ih
    obtain ⟨path1, path2, n1, n2, fwd, fwd1, rev, rev1, _, _, hp1, _, hf, hf1, _, hr1, hfq, _⟩ :=
      phfwdAdd_spec_ok hok hpf
    refine ⟨fwd1, rev1, hf1, hr1, ?_⟩
    rw [hfq]
    have hne := toPath_ne_nil hp1
    rw [hf0] at hf
    simp only [Option.some.injEq] at hf
    subst hf
    rw [if_neg (fun e => hne e.symm)]
    exact hroot
  | remove pf num pf1 _ hrem ih =>
    obtain ⟨fwd0, rev0, hf0, hr0, hroot⟩ := ih
    rcases phfwdRemove_spec hrem with hsame | ⟨number, path, fwd, rev, _, hpath, hf, hr, _, hf1, hr1⟩
    · subst hsame
      exact ⟨fwd0, rev0, hf0, hr0, hroot⟩
    · refine ⟨_, _, hf1, hr1, ?_⟩
      rw [Trie.redirectAt_keepRoot, Trie.redirectAt_cut]
      have hne := toPath_ne_nil hpath
      rw [hf0] at hf
      simp only [Option.some.injEq] at hf
      subst hf
      have : ¬ path <+: [] := by
        intro hp
        exact hne (List.prefix_nil.mp hp)
      rw [if_neg this]
      exact hroot

/-! ## `phfwdGet` -/

theorem storedRedirect_take {pf : PhoneForward Trie} {fwd : Trie} {num : Number}
    {path : List (Fin 12)} (hf : pf.forward = some fwd) (hroot : fwd.redirectAt [] = [])
    (hpath : toPath (some num) = some path) (k : Nat) :
    storedRedirect pf (num.take k) = (fwd.redirectAt (path.take k)).head? := by
  unfold storedRedirect
  rw [hf]
  cases k with
  | zero => simp [toPath, hroot]
  | succ k => simp only [toPath_take hpath (k + 1) (Nat.succ_pos k)]

theorem phfwdGet_spec_eq {pf : PhoneForward Trie} {fwd : Trie} {num : Number}
    {path : List (Fin 12)} (hf : pf.forward = some fwd) (hpath : toPath (some num) = some path)
    (h : Heap) (hmem : (malloc h).1 = true) :
    (phfwdGet specTrie h (some pf) (some num)).1 =
      match fwd.longestPrefixMatch path 0 none with
      | none => [some num]
      | some (target, depth) => [some (target ++ num.drop depth)] := by
  simp only [phfwdGet, hf, specTrie, specGetFromForward, hpath]
  rcases hm : malloc h with ⟨granted, h1⟩
  rw [hm] at hmem
  simp only at hmem
  subst hmem
  simp only
  split <;> rfl

/-- The list `phfwdGet` returns on a reachable registry, memory permitting: the
Redirect of the longest stored prefix followed by the rest of the number, or
the number itself. -/
theorem phfwdGet_reachable (pf : PhoneForward Trie) (hreach : Reachable pf)
    (num : Number) (hvalid : isNumber (some num) = true) (h : Heap)
    (hmem : (malloc h).1 = true) :
    (∃ k target, k ≤ num.length ∧ storedRedirect pf (num.take k) = some target ∧
        (∀ j, k < j → j ≤ num.length → storedRedirect pf (num.take j) = none) ∧
        (phfwdGet specTrie h (some pf) (some num)).1 = [some (target ++ num.drop k)]) ∨
      ((∀ k, storedRedirect pf (num.take k) = none) ∧
        (phfwdGet specTrie h (some pf) (some num)).1 = [some num]) := by
  obtain ⟨fwd, rev, hf, _, hroot⟩ := reachable_roots hreach
  obtain ⟨path, hpath⟩ := Option.isSome_iff_exists.mp hvalid
  have hlen : path.length = num.length := symbols_length (toPath_some hpath).1
  have hstored := storedRedirect_take hf hroot hpath
  have hget := phfwdGet_spec_eq hf hpath h hmem
  rcases Trie.longestPrefixMatch_spec fwd path 0 none with
    ⟨heq, hnone⟩ | ⟨k, target, hk, hhead, hmax, heq⟩
  · right
    refine ⟨?_, ?_⟩
    · intro k
      rw [hstored]
      by_cases hk : k ≤ path.length
      · rw [hnone k hk]
        rfl
      · rw [List.take_of_length_le (by omega), ← List.take_length path, hnone _ (le_refl _)]
        rfl
    · rw [hget, heq]
  · left
    refine ⟨k, target, by omega, ?_, ?_, ?_⟩
    · rw [hstored]
      exact hhead
    · intro j hj hle
      rw [hstored, hmax j hj (by omega)]
      rfl
    · rw [hget, heq]
      simp

/-- The Redirect stored for `num1` after a `phfwdAdd(num1, num2)` that returned
`true`. -/
theorem storedRedirect_after_add {h : Heap} {pf pf1 : PhoneForward Trie} {A B : Number}
    (hok : (phfwdAdd specTrie h (some pf) (some A) (some B)).1 = true)
    (hpf : (phfwdAdd specTrie h (some pf) (some A) (some B)).2.1 = some pf1) :
    storedRedirect pf1 A = some B := by
  obtain ⟨path1, _, _, n2, fwd0, fwd1, _, _, _, hn2, hp1, _, _, hf1, _, _, hfq, _⟩ :=
    phfwdAdd_spec_ok hok hpf
  simp only [Option.some.injEq] at hn2
  subst hn2
  unfold storedRedirect
  rw [hf1, hp1]
  simp only
  rw [hfq, if_pos rfl]
  rfl

/-! ## The model of the Trie Engine: reverse lookup -/

theorem offset_some {num : Number} {n : Nat} (hn : n ≤ num.length) :
    offset (some num) n = some (num.drop n) := by
  simp [offset, hn]

theorem offset_none {num : Number} {n : Nat} (hn : ¬ n ≤ num.length) :
    offset (some num) n = none := by
  simp [offset, hn]

theorem combineNumbers_some (ops : NumOps)
    (hcombine : ∀ h a b, (ops.combineNumbers h (some a) (some b)).1 = none ∨
      (ops.combineNumbers h (some a) (some b)).1 = some (a ++ b))
    {h h1 : Heap} {a b n : Number} (hc : ops.combineNumbers h (some a) (some b) = (some n, h1)) :
    n = a ++ b := by
  rcases hcombine h a b with hnone | hsome
  · rw [hc] at hnone
    simp at hnone
  · rw [hc] at hsome
    simpa using hsome

/-- With a source that is not empty and fewer than `level + 1` symbols in
`num`, `addNumbers` reads `num` past its terminator. -/
theorem addNumbers_outside (ops : NumOps) (h : Heap) (number : CStr) (next target : PhoneNumbers)
    (level : Nat) (num : Number) (hout : num.length < level + 1) :
    addNumbers ops h (number :: next) target level (some num) = none := by
  simp [addNumbers, offset_none (Nat.not_le.mpr hout)]

/-- C1: over the model of the Trie Engine, for every registry reached from a
new registry by `phfwdAdd` calls that return `true` and `phfwdRemove` calls, and
every number `num`, `phfwdGet` (memory permitting) returns a list of exactly
one number. If some prefix of `num` has a stored Redirect, it is the Redirect
`target` of the longest such prefix, `num.take k`, followed by the rest of
`num`; otherwise it is `num`. In particular, if the registry is the one left by
a `phfwdAdd(A, B)` that returned `true` and `num` is `A` followed by `s`, with no
stored prefix of `num` longer than `A`, the list holds `B` followed by `s`. -/
theorem phfwdGet_longest_stored (pf : PhoneForward Trie) (hreach : Reachable pf)
    (num : Number) (hvalid : isNumber (some num) = true) (h : Heap)
    (hmem : (malloc h).1 = true) :
    ((∃ k target, k ≤ num.length ∧ storedRedirect pf (num.take k) = some target ∧
        (∀ j, k < j → j ≤ num.length → storedRedirect pf (num.take j) = none) ∧
        (phfwdGet specTrie h (some pf) (some num)).1 = [some (target ++ num.drop k)]) ∨
      ((∀ k, storedRedirect pf (num.take k) = none) ∧
        (phfwdGet specTrie h (some pf) (some num)).1 = [some num])) ∧
    (∀ (h0 : Heap) (pf0 : PhoneForward Trie) (A B s : Number),
      (phfwdAdd specTrie h0 (some pf0) (some A) (some B)).1 = true →
      (phfwdAdd specTrie h0 (some pf0) (some A) (some B)).2.1 = some pf →
      num = A ++ s →
      (∀ j, A.length < j → j ≤ num.length → storedRedirect pf (num.take j) = none) →
      (phfwdGet specTrie h (some pf) (some num)).1 = [some (B ++ s)]) := by
  have hmain := phfwdGet_reachable pf hreach num hvalid h hmem
  refine ⟨hmain, ?_⟩
  intro h0 pf0 A B s hok hpf hnum hlonger
  have hAlen : A.length ≤ num.length := by simp [hnum]
  have hAtake : num.take A.length = A := by simp [hnum]
  have hA : storedRedirect pf (num.take A.length) = some B := by
    rw [hAtake]
    exact storedRedirect_after_add hok hpf
  rcases hmain with ⟨k, target, hk, hst, hmax, hres⟩ | ⟨hnone, _⟩
  · have hkA : k = A.length := by
      rcases Nat.lt_trichotomy k A.length with hlt | heq | hgt
      · rw [hmax A.length hlt hAlen] at hA
        simp at hA
      · exact heq
      · rw [hlonger k hgt hk] at hst
        simp at hst
    subst hkA
    rw [hA] at hst
    simp only [Option.some.injEq] at hst
    subst hst
    rw [hres, hnum]
    simp
  · rw [hnone] at hA
    simp at hA

/-! ## `phfwdRemove` after `phfwdAdd` -/

theorem phfwdGet_spec_det (pf : PhoneForward Trie) (h : Heap) (c : CStr) :
    (phfwdGet specTrie h (some pf) c).1 = [] ∨
      (phfwdGet specTrie h (some pf) c).1 = (phfwdGet specTrie [] (some pf) c).1 := by
  simp only [phfwdGet]
  cases pf.forward with
  | none => exact Or.inl rfl
  | some fwd =>
    simp only [specTrie, specGetFromForward]
    split
    · rcases hm : malloc h with ⟨granted, h1⟩
      cases granted with
      | false => exact Or.inl rfl
      | true =>
        right
        simp only [malloc]
        split <;> rfl
    · exact Or.inl rfl

/-- C2: if every `phfwdGet` call made during filtering returns a list (each
being `G c`, the list `phfwdGet` returns for `c` when it does not fail) and at
least one candidate survives, `phfwdGetReverse` returns exactly the candidates
`c` of the list `getFromReverse` produced whose image `G c` starts with a
number identical to `num`, in their original order and with nothing added: a
number is in the result exactly when it is such a candidate. -/
theorem phfwdGetReverse_filter {T : Type} (tops : TrieOps T) (ops : NumOps) (h : Heap)
    (pf : PhoneForward T) (num : CStr) (G : CStr → PhoneNumbers)
    (hdet : ∀ h c, (phfwdGet tops h (some pf) c).1 = [] ∨ (phfwdGet tops h (some pf) c).1 = G c)
    (hok : getsSucceed tops pf (tops.getFromReverse h pf.reverse num).2
      (tops.getFromReverse h pf.reverse num).1 = true)
    (hsurvivor : (tops.getFromReverse h pf.reverse num).1.filter
      (fun c => survives ops num (G c)) ≠ []) :
    (phfwdGetReverse tops ops h (some pf) num).1 =
        (tops.getFromReverse h pf.reverse num).1.filter (fun c => survives ops num (G c)) ∧
      ∀ c, c ∈ (phfwdGetReverse tops ops h (some pf) num).1 ↔
        c ∈ (tops.getFromReverse h pf.reverse num).1 ∧ survives ops num (G c) = true := by
  have hres : (phfwdGetReverse tops ops h (some pf) num).1 =
      (tops.getFromReverse h pf.reverse num).1.filter (fun c => survives ops num (G c)) := by
    rcases hrev : tops.getFromReverse h pf.reverse num with ⟨ans, h1⟩
    rw [hrev] at hok hsurvivor
    simp only at hok hsurvivor
    have h1ok := deleteLoopLater_ok tops ops pf num h1 ans
    have h1f := deleteLoopLater_filter tops ops pf num G hdet h1 ans hok
    rw [hok] at h1ok
    simp only [phfwdGetReverse, hrev, deleteNumbers_eq_later]
    rcases hdel : deleteLoopLater tops ops pf num h1 ans with ⟨ok, ans1, h2⟩
    rw [hdel] at h1ok h1f
    simp only at h1ok h1f
    subst h1ok
    subst h1f
    cases hfl : List.filter (fun c => survives ops num (G c)) ans with
    | nil => exact absurd hfl hsurvivor
    | cons c cs => rfl
  refine ⟨hres, ?_⟩
  intro c
  rw [hres, List.mem_filter]

/-- C5: if every `phfwdGet` call made during filtering returns a list and no
candidate survives (in particular when `getFromReverse` produced no list), then
`phfwdGetReverse` on a non-null registry returns, when the node is allocated, a
list of exactly one element whose number is `NULL`, and `phnumGet` on that list
returns `NULL` at every index. -/
theorem phfwdGetReverse_absent_marker {T : Type} (tops : TrieOps T) (ops : NumOps) (h : Heap)
    (pf : PhoneForward T) (num : CStr) (G : CStr → PhoneNumbers)
    (hdet : ∀ h c, (phfwdGet tops h (some pf) c).1 = [] ∨ (phfwdGet tops h (some pf) c).1 = G c)
    (hok : getsSucceed tops pf (tops.getFromReverse h pf.reverse num).2
      (tops.getFromReverse h pf.reverse num).1 = true)
    (hnone : (tops.getFromReverse h pf.reverse num).1.filter
      (fun c => survives ops num (G c)) = [])
    (hmem : (malloc (heapAfterGets tops pf (tops.getFromReverse h pf.reverse num).2
      (tops.getFromReverse h pf.reverse num).1)).1 = true) :
    (phfwdGetReverse tops ops h (some pf) num).1 = [none] ∧
      ∀ idx, phnumGet (phfwdGetReverse tops ops h (some pf) num).1 idx = none := by
  have hres : (phfwdGetReverse tops ops h (some pf) num).1 = [none] := by
    rcases hrev : tops.getFromReverse h pf.reverse num with ⟨ans, h1⟩
    rw [hrev] at hok hnone hmem
    simp only at hok hnone hmem
    have h1ok := deleteLoopLater_ok tops ops pf num h1 ans
    have h1f := deleteLoopLater_filter tops ops pf num G hdet h1 ans hok
    have h1h := deleteLoopLater_heap tops ops pf num h1 ans hok
    rw [hok] at h1ok
    rw [hnone] at h1f
    simp only [phfwdGetReverse, hrev, deleteNumbers_eq_later]
    rcases hdel : deleteLoopLater tops ops pf num h1 ans with ⟨ok, ans1, h2⟩
    rw [hdel] at h1ok h1f h1h
    simp only at h1ok h1f h1h
    subst h1ok
    subst h1f
    subst h1h
    simp only [newPhoneNumber]
    rcases hm : malloc (heapAfterGets tops pf h1 ans) with ⟨granted, h3⟩
    rw [hm] at hmem
    simp only at hmem
    subst hmem
    rfl
  refine ⟨hres, ?_⟩
  intro idx
  rw [hres]
  cases idx with
  | zero => rfl
  | succ i =>
    cases i <;> rfl

/-- C8, amended: on a non-null registry, when `getFromReverse` leaves the
result `NULL` (so that `phfwdReverse` returns `NULL`), `phfwdGetReverse` returns
what `newPhoneNumber(NULL)` returns: the one-element list holding `NULL` when
the node is allocated, and `NULL` only when that allocation fails. -/
theorem phfwdGetReverse_of_null_reverse {T : Type} (tops : TrieOps T) (ops : NumOps)
    (h : Heap) (pf : PhoneForward T) (num : CStr)
    (hnull : (phfwdReverse tops h (some pf) num).1 = []) :
    phfwdGetReverse tops ops h (some pf) num =
        newPhoneNumber (phfwdReverse tops h (some pf) num).2 none ∧
      (phfwdGetReverse tops ops h (some pf) num).1 =
        if (malloc (phfwdReverse tops h (some pf) num).2).1 then [none] else [] := by
  have hres : phfwdGetReverse tops ops h (some pf) num =
      newPhoneNumber (phfwdReverse tops h (some pf) num).2 none := by
    simp only [phfwdReverse] at hnull ⊢
    rcases hrev : tops.getFromReverse h pf.reverse num with ⟨ans, h1⟩
    rw [hrev] at hnull
    simp only at hnull
    subst hnull
    simp only [phfwdGetReverse, hrev, deleteNumbersFromReversePhnum]
  refine ⟨hres, ?_⟩
  rw [hres]
  simp only [newPhoneNumber]
  rcases hm : malloc (phfwdReverse tops h (some pf) num).2 with ⟨granted, h3⟩
  cases granted <;> rfl

/-- C9: if a `phfwdGet` call made during filtering returns `NULL`,
`phfwdGetReverse` returns `NULL`: neither a partly filtered list nor the list
holding the `NULL` number. -/
theorem phfwdGetReverse_null_of_failed_get {T : Type} (tops : TrieOps T) (ops : NumOps)
    (h : Heap) (pf : PhoneForward T) (num : CStr)
    (hfail : getsSucceed tops pf (tops.getFromReverse h pf.reverse num).2
      (tops.getFromReverse h pf.reverse num).1 = false) :
    (phfwdGetReverse tops ops h (some pf) num).1 = [] := by
  rcases hrev : tops.getFromReverse h pf.reverse num with ⟨ans, h1⟩
  rw [hrev] at hfail
  simp only at hfail
  have h1ok := deleteLoopLater_ok tops ops pf num h1 ans
  rw [hfail] at h1ok
  simp only [phfwdGetReverse, hrev, deleteNumbers_eq_later]
  rcases hdel : deleteLoopLater tops ops pf num h1 ans with ⟨ok, ans1, h2⟩
  rw [hdel] at h1ok
  simp only at h1ok
  subst h1ok
  rfl

/-! ## Concrete instances -/

theorem reachable_emptyRegistry : Reachable emptyRegistry :=
  Reachable.new [] emptyRegistry rfl

theorem reachable_registrySpecific : Reachable registrySpecific :=
  Reachable.add [] (registryAdd emptyRegistry "22" "44") (some "22123".toList)
    (some "55".toList) _
    (Reachable.add [] emptyRegistry (some "22".toList) (some "44".toList) _
      reachable_emptyRegistry (by decide) rfl)
    (by decide) rfl

theorem specNum_combine (h : Heap) (a b : Number) :
    (specNum.combineNumbers h (some a) (some b)).1 = none ∨
      (specNum.combineNumbers h (some a) (some b)).1 = some (a ++ b) := by
  simp only [specNum]
  rcases malloc h with ⟨granted, h1⟩
  cases granted
  · exact Or.inl rfl
  · exact Or.inr rfl

theorem specNum_identical (a b : Number) :
    specNum.areNumbersIndentical (some a) (some b) = true ↔ a = b := by
  simp [specNum]

/-- The longest stored prefix wins, at the registry of §8 (`22 → 44`,
`22123 → 55`) and the number `22123999`: the list returned holds `55999`. -/
theorem phfwdGet_longest_stored_witness :
    Reachable registrySpecific ∧ isNumber (some "22123999".toList) = true ∧
    (malloc []).1 = true ∧
    (((∃ k target, k ≤ "22123999".toList.length ∧
          storedRedirect registrySpecific ("22123999".toList.take k) = some target ∧
          (∀ j, k < j → j ≤ "22123999".toList.length →
            storedRedirect registrySpecific ("22123999".toList.take j) = none) ∧
          (phfwdGet specTrie [] (some registrySpecific) (some "22123999".toList)).1 =
            [some (target ++ "22123999".toList.drop k)]) ∨
        ((∀ k, storedRedirect registrySpecific ("22123999".toList.take k) = none) ∧
          (phfwdGet specTrie [] (some registrySpecific) (some "22123999".toList)).1 =
            [some "22123999".toList])) ∧
      (∀ (h0 : Heap) (pf0 : PhoneForward Trie) (A B s : Number),
        (phfwdAdd specTrie h0 (some pf0) (some A) (some B)).1 = true →
        (phfwdAdd specTrie h0 (some pf0) (some A) (some B)).2.1 = some registrySpecific →
        "22123999".toList = A ++ s →
        (∀ j, A.length < j → j ≤ "22123999".toList.length →
          storedRedirect registrySpecific ("22123999".toList.take j) = none) →
        (phfwdGet specTrie [] (some registrySpecific) (some "22123999".toList)).1 =
          [some (B ++ s)])) ∧
    (phfwdGet specTrie [] (some registrySpecific) (some "22123999".toList)).1 =
      [some ("55".toList ++ "999".toList)] :=
  ⟨reachable_registrySpecific, by decide, rfl,
    phfwdGet_longest_stored registrySpecific reachable_registrySpecific "22123999".toList
      (by decide) [] rfl,
    (phfwdGet_longest_stored registrySpecific reachable_registrySpecific "22123999".toList
      (by decide) [] rfl).2 [] (registryAdd emptyRegistry "22" "44") "22123".toList
      "55".toList "999".toList (by decide) rfl (by decide)
      (by
        intro j hlow hhigh
        have hhigh2 : j ≤ 8 := hhigh
        have hlow2 : 5 < j := hlow
        interval_cases j <;> decide)⟩

/-- The consistency filter at the registry `1 → 2`, `3 → 2`, `35 → 4` and the
number `25`: of the candidates `15` and `35` only `15` is returned. -/
theorem phfwdGetReverse_filter_witness :
    (∀ h c, (phfwdGet specTrie h (some registryOverlap) c).1 = [] ∨
      (phfwdGet specTrie h (some registryOverlap) c).1 = forwardImage registryOverlap c) ∧
    getsSucceed specTrie registryOverlap
      (specTrie.getFromReverse [] registryOverlap.reverse (some "25".toList)).2
      (specTrie.getFromReverse [] registryOverlap.reverse (some "25".toList)).1 = true ∧
    (specTrie.getFromReverse [] registryOverlap.reverse (some "25".toList)).1.filter
      (fun c => survives specNum (some "25".toList) (forwardImage registryOverlap c)) ≠ [] ∧
    ((phfwdGetReverse specTrie specNum [] (some registryOverlap) (some "25".toList)).1 =
        (specTrie.getFromReverse [] registryOverlap.reverse (some "25".toList)).1.filter
          (fun c => survives specNum (some "25".toList) (forwardImage registryOverlap c)) ∧
      ∀ c, c ∈ (phfwdGetReverse specTrie specNum [] (some registryOverlap)
          (some "25".toList)).1 ↔
        c ∈ (specTrie.getFromReverse [] registryOverlap.reverse (some "25".toList)).1 ∧
          survives specNum (some "25".toList) (forwardImage registryOverlap c) = true) :=
  ⟨phfwdGet_spec_det registryOverlap, by decide, by decide,
    phfwdGetReverse_filter specTrie specNum [] registryOverlap (some "25".toList)
      (forwardImage registryOverlap) (phfwdGet_spec_det registryOverlap) (by decide)
      (by decide)⟩

/-- The absent marker at the registry `3 → 2`, `35 → 4` and the number `25`:
the only candidate, `35`, is forwarded to `4`, and the result is the list
holding `NULL`. -/
theorem phfwdGetReverse_absent_marker_witness :
    (∀ h c, (phfwdGet specTrie h (some registryShadowed) c).1 = [] ∨
      (phfwdGet specTrie h (some registryShadowed) c).1 = forwardImage registryShadowed c) ∧
    getsSucceed specTrie registryShadowed
      (specTrie.getFromReverse [] registryShadowed.reverse (some "25".toList)).2
      (specTrie.getFromReverse [] registryShadowed.reverse (some "25".toList)).1 = true ∧
    (specTrie.getFromReverse [] registryShadowed.reverse (some "25".toList)).1.filter
      (fun c => survives specNum (some "25".toList) (forwardImage registryShadowed c)) = [] ∧
    (malloc (heapAfterGets specTrie registryShadowed
      (specTrie.getFromReverse [] registryShadowed.reverse (some "25".toList)).2
      (specTrie.getFromReverse [] registryShadowed.reverse (some "25".toList)).1)).1 = true ∧
    ((phfwdGetReverse specTrie specNum [] (some registryShadowed) (some "25".toList)).1 =
        [none] ∧
      ∀ idx, phnumGet
        (phfwdGetReverse specTrie specNum [] (some registryShadowed) (some "25".toList)).1
        idx = none) :=
  ⟨phfwdGet_spec_det registryShadowed, by decide, by decide, by decide,
    phfwdGetReverse_absent_marker specTrie specNum [] registryShadowed (some "25".toList)
      (forwardImage registryShadowed) (phfwdGet_spec_det registryShadowed) (by decide)
      (by decide) (by decide)⟩

/-- A `NULL` reverse list is not reported as `NULL`: on a new registry and the
empty string, an invalid argument, `getFromReverse` leaves the result `NULL` and `phfwdReverse` returns
`NULL`, but `phfwdGetReverse` returns a list: the one holding the `NULL`
number. -/
theorem phfwdGetReverse_not_null :
    (specTrie.getFromReverse [] emptyRegistry.reverse (some [])).1 = [] ∧
    (phfwdReverse specTrie [] (some emptyRegistry) (some [])).1 = [] ∧
    (phfwdGetReverse specTrie specNum [] (some emptyRegistry) (some [])).1 = [none] ∧
    (phfwdGetReverse specTrie specNum [] (some emptyRegistry) (some [])).1 ≠ [] := by
  decide

/-- The result for a `NULL` reverse list on the registry `1 → 2` and the
number `7`, which no rule yields. -/
theorem phfwdGetReverse_of_null_reverse_witness :
    (phfwdReverse specTrie [] (some registryOneTwo) (some "7".toList)).1 = [] ∧
    (phfwdGetReverse specTrie specNum [] (some registryOneTwo) (some "7".toList) =
        newPhoneNumber (phfwdReverse specTrie [] (some registryOneTwo)
          (some "7".toList)).2 none ∧
      (phfwdGetReverse specTrie specNum [] (some registryOneTwo) (some "7".toList)).1 =
        if (malloc (phfwdReverse specTrie [] (some registryOneTwo)
          (some "7".toList)).2).1 then [none] else []) :=
  ⟨by decide,
    phfwdGetReverse_of_null_reverse specTrie specNum [] registryOneTwo (some "7".toList)
      (by decide)⟩

/-- A failing `phfwdGet` at the registry `1 → 2` and the number `2`, with
memory granted to the reverse lookup and refused to `phfwdGet` on the
candidate `1`. -/
theorem phfwdGetReverse_null_of_failed_get_witness :
    getsSucceed specTrie registryOneTwo
      (specTrie.getFromReverse [true, false] registryOneTwo.reverse (some "2".toList)).2
      (specTrie.getFromReverse [true, false] registryOneTwo.reverse (some "2".toList)).1 =
        false ∧
    (phfwdGetReverse specTrie specNum [true, false] (some registryOneTwo)
      (some "2".toList)).1 = [] :=
  ⟨by decide,
    phfwdGetReverse_null_of_failed_get specTrie specNum [true, false] registryOneTwo
      (some "2".toList) (by decide)⟩

/-! ## A candidate identical to the first number -/

/-- C11, amended: a candidate identical to the first number of the target is
dropped by `addNumbers`, leaving the target unchanged, when `compareNumbers`
returns `true` on the two identical numbers. The candidate is the source number
followed by the string at `num + level + 1`, which lies inside `num` when `num`
has at least `level + 1` symbols. Nothing is assumed of `compareNumbers` on
other numbers, and the numbers after the first are not read. `addNumbers`
returns `true` exactly when both calls of `combineNumbers` return a string, and
leaves the target unchanged also when it returns `false`. -/
theorem addNumbers_drops_first (ops : NumOps)
    (hcombine : ∀ h a b, (ops.combineNumbers h (some a) (some b)).1 = none ∨
      (ops.combineNumbers h (some a) (some b)).1 = some (a ++ b))
    (first : Number) (later : PhoneNumbers) (number : Number) (level : Nat) (num : Number)
    (h : Heap) (hlevel : level + 1 ≤ num.length)
    (hsame : number ++ num.drop (level + 1) = first)
    (hidentical : ops.areNumbersIndentical (some first) (some first) = true)
    (hcompare : ops.compareNumbers (some first) (some first) = true) :
    let c1 := ops.combineNumbers h (some number) (some (num.drop (level + 1)))
    let c2 := ops.combineNumbers c1.2 (some number) (some (num.drop (level + 1)))
    addNumbers ops h [some number] (some first :: later) level (some num) =
      some (c1.1.isSome && c2.1.isSome, some first :: later,
        if c1.1.isSome then c2.2 else c1.2) := by
  intro c1 c2
  have hoff : offset (some num) (level + 1) = some (num.drop (level + 1)) :=
    offset_some hlevel
  have hc1 : ops.combineNumbers h (some number) (some (num.drop (level + 1))) = c1 := rfl
  have hc2 : ops.combineNumbers c1.2 (some number) (some (num.drop (level + 1))) = c2 := rfl
  rcases hv1 : c1 with ⟨n1, h1⟩
  rw [hv1] at hc1 hc2
  simp only at hc2
  cases n1 with
  | none => simp [addNumbers, hoff, hc1]
  | some n1 =>
    have hn1 : n1 = first := (combineNumbers_some ops hcombine hc1).trans hsame
    subst hn1
    rcases hv2 : c2 with ⟨n2, h2⟩
    rw [hv2] at hc2
    cases n2 with
    | none => simp [addNumbers, hoff, hc1, hcompare, insertFirstNumber, hc2]
    | some n2 =>
      have hn2 : n2 = n1 := (combineNumbers_some ops hcombine hc2).trans hsame
      subst hn2
      simp [addNumbers, hoff, hc1, hcompare, insertFirstNumber, hc2, hidentical]

/-! ## A null registry -/

/-- C12: every operation tolerates a `NULL` registry: `phfwdAdd` returns
`false`, `phfwdGet`, `phfwdReverse` and `phfwdGetReverse` return `NULL`, and
`phfwdRemove` does nothing. No function of `trie.h` is called: the results do
not depend on them, the registry stays `NULL` and the heap is the one
received. -/
theorem phfwd_null_registry {T : Type} (tops : TrieOps T) (ops : NumOps) (h : Heap)
    (num1 num2 : CStr) :
    phfwdAdd tops h none num1 num2 = (false, none, h) ∧
    phfwdGet tops h none num1 = ([], h) ∧
    phfwdReverse tops h none num1 = ([], h) ∧
    phfwdGetReverse tops ops h none num1 = ([], h) ∧
    phfwdRemove tops none num1 = none :=
  ⟨rfl, rfl, rfl, rfl, rfl⟩

/-! ## Deleting numbers after the first -/

theorem deleteAllLaterLoop_eq_filter (ops : NumOps) (prefixNumber : CStr)
    (later : PhoneNumbers) :
    deleteAllLaterLoop ops prefixNumber later =
      later.filter (fun number => !ops.startsWith number prefixNumber) := by
  induction later with
  | nil => rfl
  | cons number next ih =>
    rw [deleteAllLaterLoop, List.filter_cons]
    by_cases hs : ops.startsWith number prefixNumber = true
    · simp [hs, ih]
    · simp [hs, ih]

/-- C13: on a non-empty list `phnumDeleteAllLaterNumbersStarting` leaves the
first element in place, whether or not it starts with the prefix, removes every
later element whose number starts with the prefix and keeps the other later
elements in their order: the result is the first element followed by the later
ones filtered by "does not start with the prefix". -/
theorem phnumDeleteAllLaterNumbersStarting_filter (ops : NumOps) (first : CStr)
    (later : PhoneNumbers) (prefixNumber : CStr) :
    phnumDeleteAllLaterNumbersStarting ops (first :: later) prefixNumber =
      first :: later.filter (fun number => !ops.startsWith number prefixNumber) := by
  simp only [phnumDeleteAllLaterNumbersStarting, deleteAllLaterLoop_eq_filter]

theorem deleteLaterLoop_eq_eraseP (ops : NumOps) (number : CStr) (later : PhoneNumbers) :
    deleteLaterLoop ops number later =
      later.eraseP (fun x => ops.areNumbersIndentical x number) := by
  induction later with
  | nil => rfl
  | cons x next ih =>
    rw [deleteLaterLoop, List.eraseP_cons]
    by_cases hx : ops.areNumbersIndentical x number = true
    · simp [hx]
    · simp [hx, ih]

/-- C14: on a non-empty list `phnumDeleteLaterNumber` removes at most one
element, the first one after the first element whose number is identical to
`number`: the first element and every other element are kept in their order.
The list is unchanged when no later element is identical to `number`, also
when the first element is. -/
theorem phnumDeleteLaterNumber_erases_one (ops : NumOps) (first : CStr)
    (later : PhoneNumbers) (number : CStr) :
    phnumDeleteLaterNumber ops (first :: later) number =
        first :: later.eraseP (fun x => ops.areNumbersIndentical x number) ∧
      ((∀ x, x ∈ later → ops.areNumbersIndentical x number = false) →
        phnumDeleteLaterNumber ops (first :: later) number = first :: later) ∧
      (∀ before x after, later = before ++ x :: after →
        (∀ y, y ∈ before → ops.areNumbersIndentical y number = false) →
        ops.areNumbersIndentical x number = true →
        phnumDeleteLaterNumber ops (first :: later) number = first :: (before ++ after)) ∧
      (first :: later).length ≤ (phnumDeleteLaterNumber ops (first :: later) number).length + 1 := by
  have heq : phnumDeleteLaterNumber ops (first :: later) number =
      first :: later.eraseP (fun x => ops.areNumbersIndentical x number) := by
    simp only [phnumDeleteLaterNumber, deleteLaterLoop_eq_eraseP]
  refine ⟨heq, ?_, ?_, ?_⟩
  · intro hnone
    rw [heq, List.eraseP_of_forall_not]
    intro x hx
    simp [hnone x hx]
  · intro before x after hlater hbefore hx
    rw [heq, hlater, List.eraseP_append_right]
    · simp [hx]
    · intro y hy
      simp [hbefore y hy]
  · rw [heq]
    rcases List.exists_or_eq_self_of_eraseP (fun x => ops.areNumbersIndentical x number) later
      with hself | ⟨x, before, after, _, _, hlater, herase⟩
    · rw [hself]
      simp
    · rw [herase, hlater]
      simp
      omega

/-! ## Concrete instances for the list operations -/

/-- A candidate identical to the first number, with the helpers of `specNum`:
on the target `12`, `3`, the source number `1` and the number `52` give the
candidate `12`, and the target is unchanged. -/
theorem addNumbers_drops_first_witness :
    (∀ h a b, (specNum.combineNumbers h (some a) (some b)).1 = none ∨
      (specNum.combineNumbers h (some a) (some b)).1 = some (a ++ b)) ∧
    0 + 1 ≤ "52".toList.length ∧
    "1".toList ++ "52".toList.drop (0 + 1) = "12".toList ∧
    specNum.areNumbersIndentical (some "12".toList) (some "12".toList) = true ∧
    specNum.compareNumbers (some "12".toList) (some "12".toList) = true ∧
    addNumbers specNum [] [some "1".toList] (some "12".toList :: [some "3".toList]) 0
        (some "52".toList) =
      some (true, some "12".toList :: [some "3".toList], []) :=
  ⟨specNum_combine, by decide, by decide, by decide, by decide,
    addNumbers_drops_first specNum specNum_combine "12".toList [some "3".toList] "1".toList 0
      "52".toList [] (by decide) (by decide) (by decide) (by decide)⟩

/-- With the strict test for `compareNumbers` a candidate identical to the
first number is not dropped: the helpers of `strictNum` read `combineNumbers` as
concatenation, `areNumbersIndentical` as identity and `compareNumbers a b` as
"`a` sorts after `b`"; on the target `12`, `3`, the source number `1` and the
number `52` give the candidate `12`, `addNumbers` returns `true` and the target
holds `12` twice. -/
theorem addNumbers_duplicates_first :
    (∀ h a b, (strictNum.combineNumbers h (some a) (some b)).1 = none ∨
      (strictNum.combineNumbers h (some a) (some b)).1 = some (a ++ b)) ∧
    (∀ a b, strictNum.areNumbersIndentical (some a) (some b) = true ↔ a = b) ∧
    (∀ a b, strictNum.compareNumbers (some a) (some b) = true ↔ numberLt b a = true) ∧
    0 + 1 ≤ "52".toList.length ∧
    "1".toList ++ "52".toList.drop (0 + 1) = "12".toList ∧
    addNumbers strictNum [] [some "1".toList] [some "12".toList, some "3".toList] 0
        (some "52".toList) =
      some (true, [some "12".toList, some "12".toList, some "3".toList], []) ∧
    [some "12".toList, some "12".toList, some "3".toList] ≠
      [some "12".toList, some "3".toList] :=
  ⟨specNum_combine, specNum_identical, fun _ _ => Iff.rfl, by decide, by decide, by decide,
    by decide⟩

end PhFwd
